import Mathlib

/-!
# Verification of the aixiv rate-limited concurrent mapping engine

Shallow embedding of `src/aixiv/article.py` (the `Article` data class and the
`amap` engine) and of `src/aixiv/search.py` (the `Article.__post_init__`
whitespace normalisation and `format_text`).

Modelling conventions:
* Time (durations, timestamps, the per-item timeout) is in milliseconds as
  natural numbers; the source constant `INTERVAL = 0.1` seconds becomes
  `INTERVAL = 100`.
* A caller-supplied transformation `func` is modelled by its observable
  behaviour on each article: it either returns an article synchronously,
  returns an awaitable that completes with an article after a duration,
  raises synchronously, or returns an awaitable that raises after a duration.
* Python exceptions become `Except` values; `asyncio.gather` without
  `return_exceptions` propagates an exception, modelled by `gatherList`.
* The rate limiter (`limits.aio.strategies.MovingWindowRateLimiter` and
  `limits.parse`) is an external library whose code is not under `src/`;
  its behaviour is modelled from the spec (secs. 3 and 4.1): a moving-window
  limiter keeping admission timestamps, and quota construction rejecting
  non-positive counts or periods.
-/

namespace Aixiv

/-- Poll interval of the admission loop, source constant `INTERVAL = 0.1`
seconds, in milliseconds. -/
def INTERVAL : ℕ := 100

/-- `Article` from `src/aixiv/article.py`: a frozen dataclass with fields
`title`, `authors`, `summary`, `url` and an optional `origin` back-reference
to the original article. (An inductive, since the `origin` field is
self-referential.) -/
inductive Article : Type where
  | mk (title : String) (authors : List String) (summary : String)
       (url : String) (origin : Option Article) : Article

/-- Field accessor for `Article.title`. -/
def Article.title : Article → String
  | .mk t _ _ _ _ => t

/-- Field accessor for `Article.authors`. -/
def Article.authors : Article → List String
  | .mk _ a _ _ _ => a

/-- Field accessor for `Article.summary`. -/
def Article.summary : Article → String
  | .mk _ _ s _ _ => s

/-- Field accessor for `Article.url`. -/
def Article.url : Article → String
  | .mk _ _ _ u _ => u

/-- Field accessor for `Article.origin`. -/
def Article.origin : Article → Option Article
  | .mk _ _ _ _ o => o

/-- `dataclasses.replace(result, origin=article)` as used in `amap.afunc`:
a copy of `result` whose `origin` field is the given original article. -/
def replaceOrigin (result : Article) (article : Article) : Article :=
  match result with
  | .mk t a s u _ => .mk t a s u (some article)

/-- A parsed rate limit (`limits.RateLimitItem`): at most `count` admissions
per moving window of `period` milliseconds. -/
structure Quota : Type where
  count : ℕ
  period : ℕ
deriving DecidableEq

/-- Source constant `UNLIMITED = parse("1000/second")`: 1000 admissions per
second, used when the caller passes `limit=None`. -/
def UNLIMITED : Quota := ⟨1000, 1000⟩

/-- Errors that can escape an `amap` call: an invalid rate-limit quota, or an
error raised by the caller-supplied transformation. -/
inductive AmapError : Type where
  | invalidQuota : AmapError
  | funcError (msg : String) : AmapError
deriving DecidableEq

/-- Modelled from the spec: quota construction (sec. 4.1 "Error conditions"
and sec. 3 "Quota"). The parser itself is `limits.parse`, an external library
not under `src/`; per the spec it "must reject malformed specifications with a
descriptive error at construction time", and "constructing a RateLimiter with
a non-positive count or non-positive period fails with an `InvalidQuota`
error". A raw rate specification is modelled as an integer pair
`(count, period)`. -/
def parseQuota (count : ℤ) (period : ℤ) : Except AmapError Quota :=
  if count ≤ 0 ∨ period ≤ 0 then .error .invalidQuota
  else .ok ⟨count.toNat, period.toNat⟩

/-- The `limit` handling at the top of `amap.main`
(`src/aixiv/article.py` lines 117-120): `None` selects the constant
`UNLIMITED`, otherwise the raw specification is parsed. -/
def limitQuota : Option (ℤ × ℤ) → Except AmapError Quota
  | none => .ok UNLIMITED
  | some (c, p) => parseQuota c p

/-- Observable behaviour of the caller-supplied `func` on one article:
`func` may return an article synchronously, return an awaitable completing
with an article after `duration` milliseconds, raise synchronously, or
return an awaitable raising after `duration` milliseconds. -/
inductive FuncBehavior : Type where
  | sync (value : Article) : FuncBehavior
  | async (duration : ℕ) (value : Article) : FuncBehavior
  | syncRaise (msg : String) : FuncBehavior
  | asyncRaise (duration : ℕ) (msg : String) : FuncBehavior

/-- The value produced for one article by `amap.main.runner`
(`src/aixiv/article.py` lines 122-136): `afunc` sets the `origin`
back-reference on the transformed article (`replace(result, origin=article)`,
uniformly for a synchronous result and an awaited one); `wait_for` bounds the
invocation by `timeout`, and the `except TimeoutError` branch returns the
original article unchanged. Any other raised error is not caught. An
awaitable whose completion (or raise) would occur after the timeout is
cancelled at the deadline, so a late raise never surfaces. -/
def runnerOutcome (func : Article → FuncBehavior) (timeout : ℕ)
    (article : Article) : Except AmapError Article :=
  match func article with
  | .sync v => .ok (replaceOrigin v article)
  | .async d v =>
      if d ≤ timeout then .ok (replaceOrigin v article) else .ok article
  | .syncRaise msg => .error (.funcError msg)
  | .asyncRaise d msg =>
      if d ≤ timeout then .error (.funcError msg) else .ok article

/-- `asyncio.gather` over the per-article runners, without
`return_exceptions`: all results in input order, or a raised exception
propagates (in the embedding, the first error in input order). -/
def gatherList : List (Except AmapError Article) →
    Except AmapError (List Article)
  | [] => .ok []
  | .error e :: _ => .error e
  | .ok a :: rest =>
      match gatherList rest with
      | .error e => .error e
      | .ok as => .ok (a :: as)

/-- `amap` (`src/aixiv/article.py` lines 83-140): parse the rate limit
(raising `InvalidQuota` before any article is processed on a bad
specification), then gather one runner per article, in input order. The
per-article outcomes do not depend on admission timing (proved below from the
temporal runner model `runnerT`), so the join is modelled atemporally. -/
def amap (func : Article → FuncBehavior) (articles : List Article)
    (limit : Option (ℤ × ℤ)) (timeout : ℕ) :
    Except AmapError (List Article) :=
  match limitQuota limit with
  | .error e => .error e
  | .ok _ => gatherList (articles.map (runnerOutcome func timeout))

/-! ## Helper lemmas about `gatherList` -/

theorem gatherList_ok_length {l : List (Except AmapError Article)}
    {r : List Article} (h : gatherList l = .ok r) : r.length = l.length := by
  induction l generalizing r with
  | nil => simp [gatherList] at h; simp [← h]
  | cons x xs ih =>
    match x with
    | .error e => simp [gatherList] at h
    | .ok a =>
      simp only [gatherList] at h
      cases hg : gatherList xs with
      | error e => rw [hg] at h; exact absurd h (by simp)
      | ok as =>
        rw [hg] at h
        simp only [Except.ok.injEq] at h
        subst h
        simp [ih hg]

theorem gatherList_ok_get {l : List (Except AmapError Article)}
    {r : List Article} (h : gatherList l = .ok r) :
    ∀ i (h1 : i < l.length) (h2 : i < r.length),
      l.get ⟨i, h1⟩ = .ok (r.get ⟨i, h2⟩) := by
  induction l generalizing r with
  | nil => intro i h1; simp at h1
  | cons x xs ih =>
    match x with
    | .error e => simp [gatherList] at h
    | .ok a =>
      simp only [gatherList] at h
      cases hg : gatherList xs with
      | error e => rw [hg] at h; exact absurd h (by simp)
      | ok as =>
        rw [hg] at h
        simp only [Except.ok.injEq] at h
        subst h
        intro i h1 h2
        match i with
        | 0 => rfl
        | j + 1 =>
          exact ih hg j (by simpa using h1) (by simpa using h2)

theorem gatherList_all_ok {l : List (Except AmapError Article)}
    (h : ∀ x ∈ l, ∃ a, x = .ok a) : ∃ r, gatherList l = .ok r := by
  induction l with
  | nil => exact ⟨[], rfl⟩
  | cons x xs ih =>
    obtain ⟨a, ha⟩ := h x (by simp)
    obtain ⟨r, hr⟩ := ih (fun y hy => h y (by simp [hy]))
    subst ha
    exact ⟨a :: r, by simp [gatherList, hr]⟩

theorem gatherList_id {l : List Article} {f : Article → Except AmapError Article}
    (h : ∀ a ∈ l, f a = .ok a) : gatherList (l.map f) = .ok l := by
  induction l with
  | nil => rfl
  | cons x xs ih =>
    have hx := h x (by simp)
    have hxs := ih (fun a ha => h a (by simp [ha]))
    simp only [List.map_cons, hx, gatherList, hxs]

theorem gatherList_has_error {l : List (Except AmapError Article)}
    (hall : ∀ x ∈ l, ∀ e, x = .error e → ∃ m, e = .funcError m)
    (hex : ∃ x ∈ l, ∃ e, x = .error e) :
    ∃ m, gatherList l = .error (.funcError m) := by
  induction l with
  | nil => simp at hex
  | cons x xs ih =>
    match hx : x with
    | .error e =>
      obtain ⟨m, hm⟩ := hall (.error e) (by simp) e rfl
      exact ⟨m, by simp [gatherList, hm]⟩
    | .ok a =>
      have hex' : ∃ y ∈ xs, ∃ e, y = .error e := by
        obtain ⟨y, hy, e, he⟩ := hex
        rcases List.mem_cons.mp hy with h1 | h1
        · subst h1; simp at he
        · exact ⟨y, h1, e, he⟩
      obtain ⟨m, hm⟩ := ih (fun y hy => hall y (by simp [hy])) hex'
      exact ⟨m, by simp [gatherList, hm]⟩

theorem amap_eq_gather {func : Article → FuncBehavior} {arts : List Article}
    {limit : Option (ℤ × ℤ)} {timeout : ℕ} {q : Quota}
    (hq : limitQuota limit = .ok q) :
    amap func arts limit timeout =
      gatherList (arts.map (runnerOutcome func timeout)) := by
  unfold amap
  rw [hq]

/-- C1: for every finite input sequence of articles and every transformation,
`amap` returns (when it returns a list) a list of the same length as the
input, in exact input order, where the entry at index `i` corresponds to the
input at index `i`: it is either the original article itself (the timeout
fallback) or the transformed value of that article carrying the
back-reference; the empty input yields the empty list. -/
theorem amap_order_preservation (func : Article → FuncBehavior)
    (articles : List Article) (limit : Option (ℤ × ℤ)) (timeout : ℕ)
    (q : Quota) (hq : limitQuota limit = .ok q) :
    (∀ res, amap func articles limit timeout = .ok res →
      res.length = articles.length ∧
      ∀ i (hi : i < articles.length) (hr : i < res.length),
        res.get ⟨i, hr⟩ = articles.get ⟨i, hi⟩ ∨
        ∃ d v, (func (articles.get ⟨i, hi⟩) = .sync v ∨
                (func (articles.get ⟨i, hi⟩) = .async d v ∧ d ≤ timeout)) ∧
          res.get ⟨i, hr⟩ = replaceOrigin v (articles.get ⟨i, hi⟩))
    ∧ amap func [] limit timeout = .ok [] := by
  constructor
  · intro res hres
    rw [amap_eq_gather hq] at hres
    have hlen := gatherList_ok_length hres
    refine ⟨by simpa using hlen, ?_⟩
    intro i hi hr
    have hget := gatherList_ok_get hres i (by simpa using hi) hr
    simp only [List.get_eq_getElem, List.getElem_map, Fin.val_mk] at hget ⊢
    cases hfb : func articles[i] with
    | sync v =>
      simp only [runnerOutcome, hfb, Except.ok.injEq] at hget
      exact Or.inr ⟨0, v, Or.inl rfl, hget.symm⟩
    | async d v =>
      by_cases hd : d ≤ timeout
      · simp only [runnerOutcome, hfb, if_pos hd, Except.ok.injEq] at hget
        exact Or.inr ⟨d, v, Or.inr ⟨rfl, hd⟩, hget.symm⟩
      · simp only [runnerOutcome, hfb, if_neg hd, Except.ok.injEq] at hget
        exact Or.inl hget.symm
    | syncRaise msg =>
      simp only [runnerOutcome, hfb] at hget
      exact absurd hget (by simp)
    | asyncRaise d msg =>
      by_cases hd : d ≤ timeout
      · simp only [runnerOutcome, hfb, if_pos hd] at hget
        exact absurd hget (by simp)
      · simp only [runnerOutcome, hfb, if_neg hd, Except.ok.injEq] at hget
        exact Or.inl hget.symm
  · rw [amap_eq_gather hq]
    rfl

/-- The invocation of `func` on one article exceeds the per-item timeout:
it returns an awaitable that would complete (or raise) only after more than
`timeout` milliseconds, so `wait_for` raises `TimeoutError` first. -/
def timesOut (fb : FuncBehavior) (timeout : ℕ) : Bool :=
  match fb with
  | .async d _ => decide (timeout < d)
  | .asyncRaise d _ => decide (timeout < d)
  | _ => false

/-- The invocation of `func` on one article actually raises an error other
than a timeout: either synchronously, or from an awaitable that raises
before the deadline. -/
def raisesWithin (fb : FuncBehavior) (timeout : ℕ) : Bool :=
  match fb with
  | .syncRaise _ => true
  | .asyncRaise d _ => decide (d ≤ timeout)
  | _ => false

theorem runnerOutcome_of_timesOut {func : Article → FuncBehavior}
    {timeout : ℕ} {a : Article} (h : timesOut (func a) timeout = true) :
    runnerOutcome func timeout a = .ok a := by
  cases hfb : func a with
  | sync v => rw [hfb] at h; simp [timesOut] at h
  | async d v =>
    rw [hfb] at h
    simp only [timesOut, decide_eq_true_eq] at h
    simp [runnerOutcome, hfb, Nat.not_le.mpr h]
  | syncRaise msg => rw [hfb] at h; simp [timesOut] at h
  | asyncRaise d msg =>
    rw [hfb] at h
    simp only [timesOut, decide_eq_true_eq] at h
    simp [runnerOutcome, hfb, Nat.not_le.mpr h]

theorem runnerOutcome_of_no_raise {func : Article → FuncBehavior}
    {timeout : ℕ} {a : Article} (h : raisesWithin (func a) timeout = false) :
    ∃ b, runnerOutcome func timeout a = .ok b := by
  cases hfb : func a with
  | sync v => exact ⟨replaceOrigin v a, by simp [runnerOutcome, hfb]⟩
  | async d v =>
    by_cases hd : d ≤ timeout
    · exact ⟨replaceOrigin v a, by simp [runnerOutcome, hfb, hd]⟩
    · exact ⟨a, by simp [runnerOutcome, hfb, hd]⟩
  | syncRaise msg => rw [hfb] at h; simp [raisesWithin] at h
  | asyncRaise d msg =>
    rw [hfb] at h
    simp only [raisesWithin, decide_eq_false_iff_not] at h
    exact ⟨a, by simp [runnerOutcome, hfb, h]⟩

theorem runnerOutcome_of_raise {func : Article → FuncBehavior}
    {timeout : ℕ} {a : Article} (h : raisesWithin (func a) timeout = true) :
    ∃ m, runnerOutcome func timeout a = .error (.funcError m) := by
  cases hfb : func a with
  | sync v => rw [hfb] at h; simp [raisesWithin] at h
  | async d v => rw [hfb] at h; simp [raisesWithin] at h
  | syncRaise msg => exact ⟨msg, by simp [runnerOutcome, hfb]⟩
  | asyncRaise d msg =>
    rw [hfb] at h
    simp only [raisesWithin, decide_eq_true_eq] at h
    exact ⟨msg, by simp [runnerOutcome, hfb, h]⟩

theorem runnerOutcome_error_shape {func : Article → FuncBehavior}
    {timeout : ℕ} {a : Article} {e : AmapError}
    (h : runnerOutcome func timeout a = .error e) :
    ∃ m, e = .funcError m := by
  cases hfb : func a with
  | sync v => simp [runnerOutcome, hfb] at h
  | async d v =>
    by_cases hd : d ≤ timeout
    · simp [runnerOutcome, hfb, hd] at h
    · simp [runnerOutcome, hfb, hd] at h
  | syncRaise msg =>
    simp only [runnerOutcome, hfb, Except.error.injEq] at h
    exact ⟨msg, h.symm⟩
  | asyncRaise d msg =>
    by_cases hd : d ≤ timeout
    · simp only [runnerOutcome, hfb, if_pos hd, Except.error.injEq] at h
      exact ⟨msg, h.symm⟩
    · simp [runnerOutcome, hfb, hd] at h

/-- C2: an input item whose transformation exceeds the per-item timeout
yields as its result the original article unchanged (no back-reference
added); the timeout never aborts the batch nor is raised to the caller (a
batch with no genuine raise always returns a result list); and if the
transformation always exceeds the timeout, the output list equals the input
list. -/
theorem amap_timeout_fallback (func : Article → FuncBehavior)
    (articles : List Article) (limit : Option (ℤ × ℤ)) (timeout : ℕ)
    (q : Quota) (hq : limitQuota limit = .ok q) :
    (∀ res, amap func articles limit timeout = .ok res →
      ∀ i (hi : i < articles.length) (hr : i < res.length),
        timesOut (func (articles.get ⟨i, hi⟩)) timeout = true →
        res.get ⟨i, hr⟩ = articles.get ⟨i, hi⟩)
    ∧ ((∀ a ∈ articles, raisesWithin (func a) timeout = false) →
        ∃ res, amap func articles limit timeout = .ok res)
    ∧ ((∀ a ∈ articles, timesOut (func a) timeout = true) →
        amap func articles limit timeout = .ok articles) := by
  refine ⟨?_, ?_, ?_⟩
  · intro res hres i hi hr hto
    rw [amap_eq_gather hq] at hres
    have hget := gatherList_ok_get hres i (by simpa using hi) hr
    simp only [List.get_eq_getElem, List.getElem_map, Fin.val_mk] at hget ⊢
    simp only [List.get_eq_getElem, Fin.val_mk] at hto
    rw [runnerOutcome_of_timesOut hto] at hget
    simp only [Except.ok.injEq] at hget
    exact hget.symm
  · intro hnr
    rw [amap_eq_gather hq]
    refine gatherList_all_ok ?_
    intro x hx
    obtain ⟨a, ha, hax⟩ := List.mem_map.mp hx
    obtain ⟨b, hb⟩ := runnerOutcome_of_no_raise (hnr a ha)
    exact ⟨b, by rw [← hax, hb]⟩
  · intro hto
    rw [amap_eq_gather hq]
    exact gatherList_id (fun a ha => runnerOutcome_of_timesOut (hto a ha))

/-- C3: when the transformation raises an error other than a timeout on some
item (synchronously, or from an awaitable raising before the deadline),
`amap` does not catch it: the batch call yields that transformation error
instead of a result list. -/
theorem amap_error_propagates (func : Article → FuncBehavior)
    (articles : List Article) (limit : Option (ℤ × ℤ)) (timeout : ℕ)
    (q : Quota) (hq : limitQuota limit = .ok q)
    (hex : ∃ a ∈ articles, raisesWithin (func a) timeout = true) :
    ∃ msg, amap func articles limit timeout = .error (.funcError msg) := by
  rw [amap_eq_gather hq]
  refine gatherList_has_error ?_ ?_
  · intro x hx e he
    obtain ⟨a, _, hax⟩ := List.mem_map.mp hx
    exact runnerOutcome_error_shape (by rw [hax, he])
  · obtain ⟨a, ha, hra⟩ := hex
    obtain ⟨m, hm⟩ := runnerOutcome_of_raise hra
    exact ⟨runnerOutcome func timeout a, List.mem_map_of_mem _ ha,
      .funcError m, hm⟩

/-- C4: an input item whose transformation completes within the timeout
(synchronously, or as an awaitable completing before the deadline) yields
as its result the transformed article with its `origin` attribute set to the
original input item. -/
theorem amap_sets_origin (func : Article → FuncBehavior)
    (articles : List Article) (limit : Option (ℤ × ℤ)) (timeout : ℕ)
    (q : Quota) (hq : limitQuota limit = .ok q) :
    (∀ res, amap func articles limit timeout = .ok res →
      ∀ i (hi : i < articles.length) (hr : i < res.length),
        (∀ v, func (articles.get ⟨i, hi⟩) = .sync v →
          res.get ⟨i, hr⟩ = replaceOrigin v (articles.get ⟨i, hi⟩)) ∧
        (∀ d v, func (articles.get ⟨i, hi⟩) = .async d v → d ≤ timeout →
          res.get ⟨i, hr⟩ = replaceOrigin v (articles.get ⟨i, hi⟩)))
    ∧ (∀ v a, (replaceOrigin v a).origin = some a ∧
        (replaceOrigin v a).title = v.title ∧
        (replaceOrigin v a).authors = v.authors ∧
        (replaceOrigin v a).summary = v.summary ∧
        (replaceOrigin v a).url = v.url) := by
  constructor
  · intro res hres i hi hr
    rw [amap_eq_gather hq] at hres
    have hget := gatherList_ok_get hres i (by simpa using hi) hr
    simp only [List.get_eq_getElem, List.getElem_map, Fin.val_mk] at hget ⊢
    constructor
    · intro v hfb
      simp only [runnerOutcome, hfb, Except.ok.injEq] at hget
      exact hget.symm
    · intro d v hfb hd
      simp only [runnerOutcome, hfb, if_pos hd, Except.ok.injEq] at hget
      exact hget.symm
  · intro v a
    cases v with
    | mk t au s u o =>
      exact ⟨rfl, rfl, rfl, rfl, rfl⟩

/-- C5: for every non-positive rate specification, `amap` fails with the
`InvalidQuota` error before any item is processed: the outcome is the error,
for every input list, and it does not depend on the transformation at all
(zero invocations of the transformation can influence it). -/
theorem amap_invalid_quota (func g : Article → FuncBehavior)
    (articles : List Article) (c p : ℤ) (timeout : ℕ)
    (hbad : c ≤ 0 ∨ p ≤ 0) :
    amap func articles (some (c, p)) timeout = .error .invalidQuota ∧
    amap func articles (some (c, p)) timeout =
      amap g articles (some (c, p)) timeout := by
  have h : limitQuota (some (c, p)) = .error .invalidQuota := by
    simp [limitQuota, parseQuota, hbad]
  have h1 : amap func articles (some (c, p)) timeout = .error .invalidQuota := by
    unfold amap; rw [h]
  have h2 : amap g articles (some (c, p)) timeout = .error .invalidQuota := by
    unfold amap; rw [h]
  exact ⟨h1, h1.trans h2.symm⟩

/-- C7: `limit=None` is internally the constant `UNLIMITED = parse("1000/second")`,
a very high finite quota, and the call takes the same code path as the
limited case: `amap` with `limit=None` is extensionally the very call made
with the explicit `1000/second` quota, whose parse yields `UNLIMITED`. -/
theorem amap_unlimited_path (func : Article → FuncBehavior)
    (articles : List Article) (timeout : ℕ) :
    amap func articles none timeout =
      amap func articles (some (1000, 1000)) timeout
    ∧ limitQuota none = .ok UNLIMITED
    ∧ parseQuota 1000 1000 = .ok UNLIMITED := by
  have hu : limitQuota (some (1000, 1000)) = .ok UNLIMITED := by
    simp [limitQuota, parseQuota, UNLIMITED]
  refine ⟨?_, rfl, by simpa [limitQuota] using hu⟩
  rw [amap_eq_gather (show limitQuota none = .ok UNLIMITED from rfl),
    amap_eq_gather hu]

/-! ## Temporal model of the rate limiter and the admission loop -/

/-- Modelled from the spec: `RateLimiter.admit()` (sec. 4.1), the behaviour
of `MovingWindowRateLimiter.hit` from the external `limits` library (not
under `src/`): it "returns true and records a new timestamp iff fewer than
`quota.count` timestamps fall inside the trailing `quota.period` window
measured from the current time; otherwise returns false and records
nothing", dropping timestamps older than `now - period` lazily on each
call. -/
def hit (q : Quota) (st : List ℕ) (now : ℕ) : Bool × List ℕ :=
  let window := st.filter (fun ts => decide (now < ts + q.period))
  if window.length < q.count then (true, now :: window) else (false, st)

/-- A trace of `hit` calls at the given times, threading the limiter state:
returns the admitted timestamps (in call order) and the final state. -/
def hitTrace (q : Quota) : List ℕ → List ℕ → List ℕ × List ℕ
  | [], st => ([], st)
  | u :: us, st =>
    let s := hit q st u
    let rest := hitTrace q us s.2
    (if s.1 then u :: rest.1 else rest.1, rest.2)

/-- Number of timestamps of `L` inside the sliding window of duration
`period` ending at time `t`, i.e. in the half-open interval
`(t - period, t]`. -/
def windowCount (period : ℕ) (L : List ℕ) (t : ℕ) : ℕ :=
  L.countP (fun ts => decide (ts ≤ t) && decide (t < ts + period))

/-- The admission loop of `amap.main.runner`
(`src/aixiv/article.py` lines 123-124): `while not await
rate_limiter.hit(rate_limit): await sleep(INTERVAL)`. Fuel-bounded; a
successful admission returns its time and the updated limiter state. -/
def acquireLoop (q : Quota) (st : List ℕ) (now : ℕ) :
    ℕ → Option (ℕ × List ℕ)
  | 0 => none
  | fuel + 1 =>
    let s := hit q st now
    if s.1 then some (now, s.2) else acquireLoop q s.2 (now + INTERVAL) fuel

theorem hit_pos {q : Quota} {S : List ℕ} {now : ℕ}
    (h : (S.filter (fun ts => decide (now < ts + q.period))).length < q.count) :
    hit q S now =
      (true, now :: S.filter (fun ts => decide (now < ts + q.period))) := by
  unfold hit
  rw [if_pos h]

theorem hit_neg {q : Quota} {S : List ℕ} {now : ℕ}
    (h : ¬ (S.filter (fun ts => decide (now < ts + q.period))).length < q.count) :
    hit q S now = (false, S) := by
  unfold hit
  rw [if_neg h]

theorem countP_filter_of_imp {p w : ℕ → Bool}
    (h : ∀ x, w x = true → p x = true) :
    ∀ l : List ℕ, List.countP w (l.filter p) = List.countP w l := by
  intro l
  induction l with
  | nil => rfl
  | cons x xs ih =>
    by_cases hp : p x = true
    · rw [List.filter_cons_of_pos hp, List.countP_cons, List.countP_cons, ih]
    · have hw : w x = false := by
        cases hwx : w x
        · rfl
        · exact absurd (h x hwx) hp
      rw [List.filter_cons_of_neg (by simp [hp]), List.countP_cons, ih, hw]
      simp

theorem countP_mono_of_imp {p w : ℕ → Bool}
    (h : ∀ x, p x = true → w x = true) :
    ∀ l : List ℕ, List.countP p l ≤ List.countP w l := by
  intro l
  induction l with
  | nil => exact Nat.le_refl 0
  | cons x xs ih =>
    rw [List.countP_cons, List.countP_cons]
    by_cases hp : p x = true
    · rw [hp, h x hp]
      exact Nat.add_le_add ih (Nat.le_refl 1)
    · have : p x = false := by cases hpx : p x; rfl; exact absurd hpx hp
      rw [this]
      refine Nat.le_trans (by simp [ih]) (Nat.le_add_right _ _)

theorem windowCount_append (p : ℕ) (A B : List ℕ) (t : ℕ) :
    windowCount p (A ++ B) t = windowCount p A t + windowCount p B t := by
  unfold windowCount
  exact List.countP_append _ _ _

theorem windowCount_cons (p u : ℕ) (L : List ℕ) (t : ℕ) :
    windowCount p (u :: L) t =
      windowCount p L t + (if u ≤ t ∧ t < u + p then 1 else 0) := by
  unfold windowCount
  rw [List.countP_cons]
  congr 1
  by_cases h1 : u ≤ t <;> by_cases h2 : t < u + p <;> simp [h1, h2]

theorem windowCount_singleton (p u t : ℕ) :
    windowCount p [u] t = if u ≤ t ∧ t < u + p then 1 else 0 := by
  have := windowCount_cons p u [] t
  simpa [windowCount] using this

theorem windowCount_filter {p : ℕ} {S : List ℕ} {t u : ℕ} (hut : u ≤ t) :
    windowCount p (S.filter (fun ts => decide (u < ts + p))) t =
      windowCount p S t := by
  unfold windowCount
  refine countP_filter_of_imp ?_ S
  intro x hx
  simp only [Bool.and_eq_true, decide_eq_true_eq] at hx ⊢
  omega

theorem windowCount_le_filter {p : ℕ} {S : List ℕ} {t u : ℕ} (hut : u ≤ t) :
    windowCount p S t ≤
      (S.filter (fun ts => decide (u < ts + p))).length := by
  unfold windowCount
  rw [← List.countP_eq_length_filter]
  refine countP_mono_of_imp ?_ S
  intro x hx
  simp only [Bool.and_eq_true, decide_eq_true_eq] at hx ⊢
  omega

/-- Invariant threading the limiter: `S` is the stored state, `A` all
admitted timestamps so far, `now` the current time. The state only holds
past timestamps, admitted timestamps are past, the state retains (at least)
every admitted timestamp still inside a current-or-future window, and every
sliding window over the admitted timestamps respects the quota. -/
def LimiterInv (q : Quota) (S A : List ℕ) (now : ℕ) : Prop :=
  (∀ ts ∈ S, ts ≤ now) ∧ (∀ ts ∈ A, ts ≤ now) ∧
  (∀ t, now ≤ t → windowCount q.period A t ≤ windowCount q.period S t) ∧
  (∀ t, windowCount q.period A t ≤ q.count)

theorem hit_step {q : Quota} {S A : List ℕ} {now u : ℕ}
    (hInv : LimiterInv q S A now) (hnu : now ≤ u) :
    LimiterInv q (hit q S u).2
      (if (hit q S u).1 then A ++ [u] else A) u := by
  obtain ⟨hS, hA, hAS, hbound⟩ := hInv
  by_cases hc : (S.filter (fun ts => decide (u < ts + q.period))).length < q.count
  · rw [hit_pos hc]
    simp only [if_pos]
    refine ⟨?_, ?_, ?_, ?_⟩
    · intro ts hts
      rcases List.mem_cons.mp hts with h1 | h1
      · omega
      · exact Nat.le_trans (hS ts (List.mem_of_mem_filter h1)) hnu
    · intro ts hts
      rcases List.mem_append.mp hts with h1 | h1
      · exact Nat.le_trans (hA ts h1) hnu
      · simp at h1
        omega
    · intro t hut
      rw [windowCount_append, windowCount_singleton, windowCount_cons,
        windowCount_filter hut]
      have h1 : windowCount q.period A t ≤ windowCount q.period S t :=
        hAS t (Nat.le_trans hnu hut)
      by_cases hu : u ≤ t ∧ t < u + q.period
      · simp only [if_pos hu]
        omega
      · simp only [if_neg hu]
        omega
    · intro t
      rw [windowCount_append, windowCount_singleton]
      by_cases hu : u ≤ t ∧ t < u + q.period
      · rw [if_pos hu]
        have h1 : windowCount q.period A t ≤ windowCount q.period S t :=
          hAS t (Nat.le_trans hnu hu.1)
        have h3 := windowCount_le_filter (p := q.period) (S := S) (u := u) hu.1
        omega
      · rw [if_neg hu]
        have := hbound t
        omega
  · rw [hit_neg hc]
    refine ⟨fun ts hts => Nat.le_trans (hS ts hts) hnu,
      ?_, ?_, ?_⟩
    · simp only [Bool.false_eq_true, if_neg, ite_false]
      exact fun ts hts => Nat.le_trans (hA ts hts) hnu
    · simp only [Bool.false_eq_true, if_neg, ite_false]
      exact fun t hut => hAS t (Nat.le_trans hnu hut)
    · simp only [Bool.false_eq_true, if_neg, ite_false]
      exact hbound

theorem hitTrace_bound {q : Quota} :
    ∀ (times : List ℕ) (S A : List ℕ) (now : ℕ),
      LimiterInv q S A now → List.Chain (· ≤ ·) now times →
      ∀ t, windowCount q.period (A ++ (hitTrace q times S).1) t ≤ q.count := by
  intro times
  induction times with
  | nil =>
    intro S A now hInv _ t
    simpa [hitTrace] using hInv.2.2.2 t
  | cons u us ih =>
    intro S A now hInv hchain t
    obtain ⟨hnu, hchain2⟩ := List.chain_cons.mp hchain
    have hstep := hit_step hInv hnu
    simp only [hitTrace]
    cases hb : (hit q S u).1 with
    | false =>
      rw [hb] at hstep
      simp only [Bool.false_eq_true, if_neg, ite_false] at hstep ⊢
      exact ih (hit q S u).2 A u hstep hchain2 t
    | true =>
      rw [hb] at hstep
      simp only [if_pos, ite_true] at hstep ⊢
      rw [List.append_cons]
      exact ih (hit q S u).2 (A ++ [u]) u hstep hchain2 t

theorem acquireLoop_time {q : Quota} {S : List ℕ} {now fuel t : ℕ}
    {S2 : List ℕ} (h : acquireLoop q S now fuel = some (t, S2)) :
    now ≤ t ∧ (t - now) % INTERVAL = 0 := by
  induction fuel generalizing S now with
  | zero => simp [acquireLoop] at h
  | succ n ih =>
    simp only [acquireLoop] at h
    by_cases hb : (hit q S now).1
    · rw [if_pos hb] at h
      simp only [Option.some.injEq, Prod.mk.injEq] at h
      obtain ⟨ht, _⟩ := h
      subst ht
      exact ⟨Nat.le_refl _, by simp⟩
    · rw [if_neg hb] at h
      obtain ⟨h1, h2⟩ := ih h
      refine ⟨by omega, ?_⟩
      have he : t - now = (t - (now + INTERVAL)) + INTERVAL := by omega
      rw [he, Nat.add_mod_right]
      exact h2

/-- C6: throughout any run with quota `(count, period)` — any monotone
sequence of `hit` attempts starting from the fresh limiter state — the
number of admitted timestamps inside any sliding window of duration
`period` never exceeds `count`; a denied admission leaves the recorded
state unchanged (records no timestamp); and a worker denied admission
retries at the fixed poll interval, so an eventual admission happens a
whole number of `INTERVAL`s after the worker first polled. -/
theorem rate_limit_window_bound (q : Quota) (times : List ℕ)
    (hmono : List.Chain (· ≤ ·) 0 times) :
    (∀ t, windowCount q.period (hitTrace q times []).1 t ≤ q.count)
    ∧ (∀ S now, (hit q S now).1 = false → (hit q S now).2 = S)
    ∧ (∀ S now fuel t S2, acquireLoop q S now fuel = some (t, S2) →
        now ≤ t ∧ (t - now) % INTERVAL = 0) := by
  refine ⟨?_, ?_, ?_⟩
  · intro t
    have hInv0 : LimiterInv q [] [] 0 :=
      ⟨by simp, by simp, fun t _ => Nat.le_refl _,
        fun t => by simp [windowCount]⟩
    simpa using hitTrace_bound times [] [] 0 hInv0 hmono t
  · intro S now hb
    by_cases hc :
        (S.filter (fun ts => decide (now < ts + q.period))).length < q.count
    · rw [hit_pos hc] at hb
      simp at hb
    · rw [hit_neg hc]
  · intro S now fuel t S2 h
    exact acquireLoop_time h

/-- Temporal model of `amap.main.runner` for one article: first the
admission loop (`acquireLoop`, starting at `now`, possibly denied many
times), then the `wait_for(afunc(article), timeout)` invocation, whose
deadline is measured from the admission time `t0` at which `func` is
invoked. Returns the completion time, the outcome, and the limiter state. -/
def runnerT (q : Quota) (func : Article → FuncBehavior) (timeout : ℕ)
    (article : Article) (st : List ℕ) (now fuel : ℕ) :
    Option (ℕ × Except AmapError Article × List ℕ) :=
  match acquireLoop q st now fuel with
  | none => none
  | some (t0, st2) =>
    match func article with
    | .sync v => some (t0, .ok (replaceOrigin v article), st2)
    | .async d v =>
        if d ≤ timeout then some (t0 + d, .ok (replaceOrigin v article), st2)
        else some (t0 + timeout, .ok article, st2)
    | .syncRaise msg => some (t0, .error (.funcError msg), st2)
    | .asyncRaise d msg =>
        if d ≤ timeout then some (t0 + d, .error (.funcError msg), st2)
        else some (t0 + timeout, .ok article, st2)

/-- C8: the per-item timeout bounds only the invocation of `func`. The
outcome a worker produces is exactly `runnerOutcome` — a function of the
transformation and the timeout alone — no matter what limiter state, start
time, or admission fuel the worker ran with, so admission wait is never
counted against (nor can it trigger) the timeout; moreover for an awaitable
of duration `d`, the invocation phase ends at `t0 + min d timeout` where
`t0` is the admission time, i.e. the deadline clock starts at admission,
not at worker start. -/
theorem timeout_bounds_only_invocation (q : Quota)
    (func : Article → FuncBehavior) (timeout : ℕ) (article : Article)
    (st : List ℕ) (now fuel : ℕ) :
    (∀ t r st2, runnerT q func timeout article st now fuel = some (t, r, st2) →
      r = runnerOutcome func timeout article)
    ∧ (∀ t r st2 t0 st0 d v,
        acquireLoop q st now fuel = some (t0, st0) →
        func article = .async d v →
        runnerT q func timeout article st now fuel = some (t, r, st2) →
        t = t0 + min d timeout) := by
  constructor
  · intro t r st2 h
    unfold runnerT at h
    cases hacq : acquireLoop q st now fuel with
    | none => rw [hacq] at h; simp at h
    | some p =>
      obtain ⟨t0, st0⟩ := p
      rw [hacq] at h
      cases hfb : func article with
      | sync v =>
        rw [hfb] at h
        simp only [Option.some.injEq, Prod.mk.injEq] at h
        rw [runnerOutcome, hfb, ← h.2.1]
      | async d v =>
        rw [hfb] at h
        by_cases hd : d ≤ timeout
        · simp only [if_pos hd, Option.some.injEq, Prod.mk.injEq] at h
          simp only [runnerOutcome, hfb, if_pos hd]
          exact h.2.1.symm
        · simp only [if_neg hd, Option.some.injEq, Prod.mk.injEq] at h
          simp only [runnerOutcome, hfb, if_neg hd]
          exact h.2.1.symm
      | syncRaise msg =>
        rw [hfb] at h
        simp only [Option.some.injEq, Prod.mk.injEq] at h
        rw [runnerOutcome, hfb, ← h.2.1]
      | asyncRaise d msg =>
        rw [hfb] at h
        by_cases hd : d ≤ timeout
        · simp only [if_pos hd, Option.some.injEq, Prod.mk.injEq] at h
          simp only [runnerOutcome, hfb, if_pos hd]
          exact h.2.1.symm
        · simp only [if_neg hd, Option.some.injEq, Prod.mk.injEq] at h
          simp only [runnerOutcome, hfb, if_neg hd]
          exact h.2.1.symm
  · intro t r st2 t0 st0 d v hacq hfb h
    unfold runnerT at h
    rw [hacq, hfb] at h
    by_cases hd : d ≤ timeout
    · simp only [if_pos hd, Option.some.injEq, Prod.mk.injEq] at h
      rw [← h.1, Nat.min_def, if_pos hd]
    · simp only [if_neg hd, Option.some.injEq, Prod.mk.injEq] at h
      rw [← h.1, Nat.min_def, if_neg hd]

/-! ## The search collaborator: `src/aixiv/search.py` -/

namespace Search

/-- Python's `\s` on the characters occurring here (the ASCII whitespace
class `' '`, `'\t'`, `'\n'`, `'\x0b'`, `'\x0c'`, `'\r'`; the model restricts
the alphabet to ASCII, where Python's `\s` is exactly this set). -/
def pySpace (c : Char) : Bool :=
  c == ' ' || c == '\t' || c == '\n' || c == '\x0b' || c == '\x0c' || c == '\r'

/-- Length of the leftmost match of `SEP_PATTERN = compile(r"\n+\s*|\n*\s+")`
at the start of `cs`, if any: the first alternative `\n+\s*` (one or more
newlines, then greedily any whitespace) applies when the text starts with a
newline; otherwise `\n*\s+` degenerates to `\s+` (a nonempty greedy
whitespace run). `none` when neither alternative matches here. -/
def sepMatchLen (cs : List Char) : Option ℕ :=
  let a := (cs.takeWhile (fun c => c == '\n')).length
  if a > 0 then some (a + ((cs.drop a).takeWhile pySpace).length)
  else
    let b := (cs.takeWhile pySpace).length
    if b > 0 then some b else none

/-- `SEP_PATTERN.sub(SEP_REPL, ·)` over a character list: Python `re.sub`
scans left to right, replaces each leftmost non-overlapping match by the
single space `SEP_REPL = " "`, and copies non-matching characters. Matches
are nonempty, so recursion is fuel-bounded by the length. -/
def subAux : ℕ → List Char → List Char
  | 0, _ => []
  | fuel + 1, cs =>
    match cs with
    | [] => []
    | c :: cs2 =>
      match sepMatchLen (c :: cs2) with
      | some n => ' ' :: subAux fuel ((c :: cs2).drop n)
      | none => c :: subAux fuel cs2

/-- `SEP_PATTERN.sub(SEP_REPL, s)` (`src/aixiv/search.py` lines 32-33 and
66-68). -/
def sepSub (s : String) : String :=
  ⟨subAux s.data.length s.data⟩

/-- `Article` of `src/aixiv/search.py` with its `__post_init__`: a record
whose `title` and `summary` have every separator converted to a single
whitespace on construction. -/
structure Record : Type where
  title : String
  authors : List String
  summary : String
  url : String

/-- Construction of a `search.Article`: `__init__` stores the fields, then
`__post_init__` replaces the separators in `title` and `summary`. -/
def makeArticle (title : String) (authors : List String)
    (summary : String) (url : String) : Record :=
  ⟨sepSub title, authors, sepSub summary, url⟩

/-- Second definition, following the claim and spec words, for comparison
with the source-derived `sepSub`: replace every maximal run of whitespace
by a single space. -/
def collapseAux : ℕ → List Char → List Char
  | 0, _ => []
  | fuel + 1, cs =>
    match cs with
    | [] => []
    | c :: cs2 =>
      if pySpace c then ' ' :: collapseAux fuel (cs2.dropWhile pySpace)
      else c :: collapseAux fuel cs2

/-- Spec-words normalisation of a whole string: every maximal whitespace run
becomes one space. -/
def collapseWs (s : String) : String :=
  ⟨collapseAux s.data.length s.data⟩

theorem takeWhile_sub_length {p w : Char → Bool}
    (h : ∀ c, w c = true → p c = true) :
    ∀ cs : List Char,
      (cs.takeWhile w).length +
        ((cs.drop (cs.takeWhile w).length).takeWhile p).length =
      (cs.takeWhile p).length := by
  intro cs
  induction cs with
  | nil => rfl
  | cons c cs ih =>
    by_cases hw : w c = true
    · rw [List.takeWhile_cons_of_pos hw, List.takeWhile_cons_of_pos (h c hw)]
      simp only [List.length_cons, List.drop_succ_cons]
      omega
    · have hw2 : w c = false := by simpa using hw
      rw [List.takeWhile_cons_of_neg (by simp [hw2])]
      simp

theorem drop_takeWhile (p : Char → Bool) :
    ∀ cs : List Char, cs.drop (cs.takeWhile p).length = cs.dropWhile p := by
  intro cs
  induction cs with
  | nil => rfl
  | cons c cs ih =>
    by_cases h : p c = true
    · rw [List.takeWhile_cons_of_pos h, List.dropWhile_cons_of_pos h]
      simpa using ih
    · have h2 : p c = false := by simpa using h
      rw [List.takeWhile_cons_of_neg (by simp [h2]),
        List.dropWhile_cons_of_neg (by simp [h2])]
      rfl

theorem sepMatchLen_of_space {c : Char} {cs : List Char}
    (h : pySpace c = true) :
    sepMatchLen (c :: cs) = some ((c :: cs).takeWhile pySpace).length := by
  by_cases hn : (c == '\n') = true
  · have he : (c :: cs).takeWhile (fun x => x == '\n') =
        c :: cs.takeWhile (fun x => x == '\n') :=
      List.takeWhile_cons_of_pos (p := fun x => x == '\n') hn
    have ha : 0 < ((c :: cs).takeWhile (fun x => x == '\n')).length := by
      rw [he]
      simp
    simp only [sepMatchLen, gt_iff_lt, ha, if_pos]
    congr 1
    refine takeWhile_sub_length ?_ (c :: cs)
    intro x hx
    have hx2 : x = '\n' := by simpa using hx
    subst hx2
    rfl
  · have hn2 : (c == '\n') = false := by simpa using hn
    have he : (c :: cs).takeWhile (fun x => x == '\n') = [] :=
      List.takeWhile_cons_of_neg (p := fun x => x == '\n') (by simp [hn2])
    have hb : 0 < ((c :: cs).takeWhile pySpace).length := by
      rw [List.takeWhile_cons_of_pos (p := pySpace) h]
      simp
    simp [sepMatchLen, he, hb]

theorem sepMatchLen_of_nonspace {c : Char} {cs : List Char}
    (h : pySpace c = false) :
    sepMatchLen (c :: cs) = none := by
  have hn2 : (c == '\n') = false := by
    cases he : (c == '\n')
    · rfl
    · have hc : c = '\n' := by simpa using he
      subst hc
      simp [pySpace] at h
  have he1 : (c :: cs).takeWhile (fun x => x == '\n') = [] :=
    List.takeWhile_cons_of_neg (p := fun x => x == '\n') (by simp [hn2])
  have he2 : (c :: cs).takeWhile pySpace = [] :=
    List.takeWhile_cons_of_neg (p := pySpace) (by simp [h])
  simp [sepMatchLen, he1, he2]

theorem subAux_eq_collapseAux :
    ∀ (fuel : ℕ) (cs : List Char), subAux fuel cs = collapseAux fuel cs := by
  intro fuel
  induction fuel with
  | zero => intro cs; rfl
  | succ n ih =>
    intro cs
    match cs with
    | [] => rfl
    | c :: cs =>
      by_cases h : pySpace c = true
      · have hdrop : (c :: cs).drop ((c :: cs).takeWhile pySpace).length =
            cs.dropWhile pySpace := by
          rw [List.takeWhile_cons_of_pos (p := pySpace) h]
          simp only [List.length_cons, List.drop_succ_cons]
          exact drop_takeWhile pySpace cs
        simp only [subAux, sepMatchLen_of_space h, collapseAux, if_pos h]
        rw [hdrop, ih]
      · have hf : pySpace c = false := by simpa using h
        simp only [subAux, sepMatchLen_of_nonspace hf, collapseAux, hf,
          Bool.false_eq_true, if_false, ite_false]
        rw [ih]

theorem collapseAux_no_space_except_blank :
    ∀ (fuel : ℕ) (cs : List Char) (c : Char), c ∈ collapseAux fuel cs →
      pySpace c = false ∨ c = ' ' := by
  intro fuel
  induction fuel with
  | zero => intro cs c hc; simp [collapseAux] at hc
  | succ n ih =>
    intro cs c hc
    match cs with
    | [] => simp [collapseAux] at hc
    | x :: xs =>
      by_cases h : pySpace x = true
      · simp only [collapseAux, if_pos h] at hc
        rcases List.mem_cons.mp hc with h1 | h1
        · exact Or.inr h1
        · exact ih _ c h1
      · have hf : pySpace x = false := by simpa using h
        simp only [collapseAux, hf, Bool.false_eq_true, if_false,
          ite_false] at hc
        rcases List.mem_cons.mp hc with h1 | h1
        · subst h1; exact Or.inl hf
        · exact ih _ c h1

end Search

/-- C9: every record constructed by the search collaborator has its `title`
and `summary` normalised on construction (`Article.__post_init__` applying
`SEP_PATTERN.sub(" ", ·)`): the stored fields equal the spec-words
normalisation replacing every maximal whitespace run by a single space, and
consequently contain no newline character; `authors` and `url` are stored
unchanged. -/
theorem search_article_fields_normalized (title : String)
    (authors : List String) (summary : String) (url : String) :
    (Search.makeArticle title authors summary url).title =
      Search.collapseWs title
    ∧ (Search.makeArticle title authors summary url).summary =
      Search.collapseWs summary
    ∧ '\n' ∉ (Search.makeArticle title authors summary url).title.data
    ∧ '\n' ∉ (Search.makeArticle title authors summary url).summary.data
    ∧ (Search.makeArticle title authors summary url).authors = authors
    ∧ (Search.makeArticle title authors summary url).url = url := by
  have ht : Search.sepSub title = Search.collapseWs title := by
    unfold Search.sepSub Search.collapseWs
    rw [Search.subAux_eq_collapseAux]
  have hs : Search.sepSub summary = Search.collapseWs summary := by
    unfold Search.sepSub Search.collapseWs
    rw [Search.subAux_eq_collapseAux]
  refine ⟨ht, hs, ?_, ?_, rfl, rfl⟩
  · intro hmem
    have hmem2 : '\n' ∈ Search.collapseAux title.data.length title.data := by
      have : (Search.makeArticle title authors summary url).title.data =
          Search.collapseAux title.data.length title.data := by
        show (Search.sepSub title).data = _
        rw [ht]
        rfl
      rwa [this] at hmem
    rcases Search.collapseAux_no_space_except_blank _ _ _ hmem2 with h | h
    · simp [Search.pySpace] at h
    · simp at h
  · intro hmem
    have hmem2 : '\n' ∈ Search.collapseAux summary.data.length summary.data := by
      have : (Search.makeArticle title authors summary url).summary.data =
          Search.collapseAux summary.data.length summary.data := by
        show (Search.sepSub summary).data = _
        rw [hs]
        rfl
      rwa [this] at hmem
    rcases Search.collapseAux_no_space_except_blank _ _ _ hmem2 with h | h
    · simp [Search.pySpace] at h
    · simp at h

/-- `format_text` (`src/aixiv/search.py` lines 79-88): LaTeX-to-text
conversion by the external `pylatexenc` detexer (modelled as an arbitrary
fallible function), with every conversion error caught: on failure the input
string is returned unchanged after a warning log. -/
def format_text (latexToText : String → Except String String)
    (text : String) : String :=
  match latexToText text with
  | .ok t => t
  | .error _ => text

/-- C10: `format_text` never raises: it is a total function for every
detexer behaviour; when the conversion succeeds it returns the converted
text, and when the conversion fails with any error it returns the input
string unchanged. -/
theorem format_text_never_raises (latexToText : String → Except String String)
    (s : String) :
    (∀ t, latexToText s = .ok t → format_text latexToText s = t)
    ∧ (∀ e, latexToText s = .error e → format_text latexToText s = s) := by
  constructor
  · intro t h
    unfold format_text
    rw [h]
  · intro e h
    unfold format_text
    rw [h]

/-! ## Concrete inputs for the witnesses -/

/-- A sample article. -/
def wArticle : Article := .mk "T" ["A"] "S" "u" none

/-- A second sample article, used as a transformed value. -/
def wArticle2 : Article := .mk "T2" [] "S2" "u2" none

theorem amap_order_preservation_witness :
    [replaceOrigin wArticle2 wArticle].length = [wArticle].length
    ∧ amap (fun _ => FuncBehavior.sync wArticle2) [] none 100 = .ok [] := by
  have h := amap_order_preservation (fun _ => FuncBehavior.sync wArticle2)
    [wArticle] none 100 UNLIMITED rfl
  exact ⟨(h.1 [replaceOrigin wArticle2 wArticle] rfl).1,
    (amap_order_preservation (fun _ => FuncBehavior.sync wArticle2)
      [] none 100 UNLIMITED rfl).2⟩

theorem amap_timeout_fallback_witness :
    amap (fun _ => FuncBehavior.async 500 wArticle2) [wArticle] none 100 =
      .ok [wArticle] := by
  exact (amap_timeout_fallback (fun _ => FuncBehavior.async 500 wArticle2)
    [wArticle] none 100 UNLIMITED rfl).2.2 (fun a _ => rfl)

theorem amap_error_propagates_witness :
    (amap (fun _ => FuncBehavior.syncRaise "boom") [wArticle] none 100).isOk
      = false := by
  obtain ⟨m, hm⟩ := amap_error_propagates
    (fun _ => FuncBehavior.syncRaise "boom") [wArticle] none 100 UNLIMITED
    rfl ⟨wArticle, by simp, rfl⟩
  rw [hm]
  rfl

theorem amap_sets_origin_witness :
    [replaceOrigin wArticle2 wArticle].get ⟨0, Nat.zero_lt_one⟩ =
      replaceOrigin wArticle2 wArticle
    ∧ (replaceOrigin wArticle2 wArticle).origin = some wArticle := by
  have h := amap_sets_origin (fun _ => FuncBehavior.async 50 wArticle2)
    [wArticle] none 100 UNLIMITED rfl
  refine ⟨?_, (h.2 wArticle2 wArticle).1⟩
  exact ((h.1 [replaceOrigin wArticle2 wArticle] rfl 0 Nat.zero_lt_one
    Nat.zero_lt_one).2 50 wArticle2 rfl (by decide))

theorem amap_invalid_quota_witness :
    amap (fun _ => FuncBehavior.sync wArticle2) [wArticle] (some (0, 1000))
      100 = .error .invalidQuota := by
  exact (amap_invalid_quota (fun _ => FuncBehavior.sync wArticle2)
    (fun _ => FuncBehavior.sync wArticle2) [wArticle] 0 1000 100
    (Or.inl (by decide))).1

theorem rate_limit_window_bound_witness :
    windowCount 1000 (hitTrace ⟨2, 1000⟩ [0, 100, 200, 1100] []).1 150 ≤ 2
    ∧ (hit ⟨2, 1000⟩ [0, 100] 200).2 = [0, 100]
    ∧ (200 ≤ 1000 ∧ (1000 - 200) % INTERVAL = 0) := by
  have h := rate_limit_window_bound ⟨2, 1000⟩ [0, 100, 200, 1100]
    (by simp [List.chain_cons])
  exact ⟨h.1 150, h.2.1 [0, 100] 200 rfl,
    h.2.2 [0, 100] 200 20 1000 [1000, 100] rfl⟩

theorem timeout_bounds_only_invocation_witness :
    Except.ok (replaceOrigin wArticle2 wArticle) =
      runnerOutcome (fun _ => FuncBehavior.async 500 wArticle2) 600 wArticle
    ∧ (1500 : ℕ) = 1000 + min 500 600 := by
  have h := timeout_bounds_only_invocation ⟨1, 1000⟩
    (fun _ => FuncBehavior.async 500 wArticle2) 600 wArticle [0] 0 20
  exact ⟨h.1 1500 (.ok (replaceOrigin wArticle2 wArticle)) [1000] rfl,
    h.2 1500 (.ok (replaceOrigin wArticle2 wArticle)) [1000] 1000 [1000]
      500 wArticle2 rfl rfl rfl⟩

theorem search_article_fields_normalized_witness :
    (Search.makeArticle "a\n\n b" ["x"] "c\td" "u").title =
      Search.collapseWs "a\n\n b"
    ∧ (Search.makeArticle "a\n\n b" ["x"] "c\td" "u").url = "u" := by
  have h := search_article_fields_normalized "a\n\n b" ["x"] "c\td" "u"
  exact ⟨h.1, h.2.2.2.2.2⟩

theorem format_text_never_raises_witness :
    format_text (fun s => Except.ok (s ++ "!")) "x" = "x!"
    ∧ format_text (fun _ => Except.error "bad") "x" = "x" := by
  exact ⟨(format_text_never_raises (fun s => Except.ok (s ++ "!")) "x").1
      "x!" rfl,
    (format_text_never_raises (fun _ => Except.error "bad") "x").2
      "bad" rfl⟩

end Aixiv
